import Mathlib

/-!
# A shallow embedding of the rynamodb table engine

This file embeds, in Lean, the parts of the rynamodb source that the
verified properties below refer to:

* `src/src/table/mod.rs` — `Table`, `Partition`, `Table::insert`,
  `Table::query`, `Partition::query`, `Partition::item_count`,
  `Table::description`;
* `src/src/table/queries.rs` — the condition-expression AST (`Node`,
  `Operator`);
* `src/src/table/visitor.rs` — `NodeVisitor` placeholder substitution;
* `src/rynamodb/src/table_manager.rs` — `TableManager`, `new_table`,
  `get_table`, `batch_write_item`.

Rust `HashMap`s are embedded as association lists (lookup returns the
first binding; `entry`-style updates rewrite the first binding in place
or append a fresh one, mirroring the fact that a `HashMap` holds at most
one binding per key).  Code paths that panic in Rust (`todo!()`,
`unreachable!()`, `.expect(..)`) are embedded as explicit `panicked`
outcomes, distinct from the typed `TableError` failures.  Calls to
`uuid::Uuid::new_v4()` are embedded by passing the freshly generated
string as an explicit argument.
-/

namespace Rynamodb

/-- Embedding of `serde_dynamo::AttributeValue`, restricted to the variants the core
engine ever constructs or inspects (`S` is the only one interpreted;
`N` and `B` stand for the non-string variants that reach the
`todo!()` arms). -/
inductive AttributeValue where
  | S (s : String)
  | N (n : String)
  | B (b : List Nat)
  deriving DecidableEq, Repr

/-- An item: `HashMap<String, AttributeValue>` as an association list. -/
abbrev Item := List (String × AttributeValue)

/-- First-binding lookup in an association list, the embedding of
`HashMap::get`. -/
def assocGet {α : Type} : List (String × α) → String → Option α
  | [], _ => none
  | (k', v) :: rest, k => if k' = k then some v else assocGet rest k

/-- Embedding of `AttributeType` from `src/src/types.rs`. -/
inductive AttributeType where
  | S
  | B
  | N
  deriving DecidableEq, Repr

/-- Embedding of `AttributeDefinition` from `src/src/types.rs`. -/
structure AttributeDefinition where
  attribute_name : String
  attribute_type : AttributeType
  deriving DecidableEq, Repr

/-- Embedding of `KeyType` from `src/src/types.rs`. -/
inductive KeyType where
  | HASH
  | RANGE
  deriving DecidableEq, Repr

/-- Embedding of `KeySchema` from `src/src/types.rs`. -/
structure KeySchema where
  attribute_name : String
  key_type : KeyType
  deriving DecidableEq, Repr

/-- Embedding of `TableError` from `src/src/table/mod.rs`. -/
inductive TableError where
  | MissingPartitionKey
  | ParseError
  | InvalidPartitionKey
  | NoAttributeName (s : String)
  | NoAttributeValue (s : String)
  | InvalidAttributeMap
  deriving DecidableEq, Repr

/-- Embedding of `Partition` from `src/src/table/mod.rs`: an ordered list of rows. -/
structure Partition where
  rows : List Item
  deriving DecidableEq, Repr

/-- Embedding of `Partition::default()`. -/
def Partition.empty : Partition := ⟨[]⟩

/-- Embedding of `Partition::insert`: `self.rows.push(attributes)`. -/
def Partition.insert (p : Partition) (attributes : Item) : Partition :=
  ⟨p.rows ++ [attributes]⟩

/-- Embedding of `Partition::item_count`: `self.rows.iter().map(|h| h.len()).sum()`.
Note that this sums the sizes of the attribute maps, not the number of
rows. -/
def Partition.item_count (p : Partition) : Nat :=
  (p.rows.map List.length).sum

/-- Embedding of `Table` from `src/src/table/mod.rs`.  The `created_at` and
`provisioned_throughput` metadata fields are omitted: no verified
property mentions them and no operation below reads them. -/
structure Table where
  name : String
  arn : String
  table_id : String
  attribute_definitions : List AttributeDefinition
  partition_key : String
  sort_key : Option String
  partitions : List (String × Partition)
  deriving DecidableEq, Repr

/-- Embedding of `TableOptions` from `src/src/table/mod.rs`. -/
structure TableOptions where
  name : String
  partition_key : String
  sort_key : Option String
  attribute_definitions : List AttributeDefinition
  deriving DecidableEq, Repr

/-- The ARN string literal hard-coded in `Table::new`
(`src/src/table/mod.rs:51`). -/
def hardcodedArn : String :=
  "arn:aws:dynamodb:eu-west-2:678133472802:table/table-d787c77d-76d4-473e-8165-b006241c6a5d"

/-- Embedding of `Table::new` (`src/src/table/mod.rs:44-55`).  The `freshUuid`
argument carries the result of the `uuid::Uuid::new_v4()` call. -/
def Table.new (options : TableOptions) (freshUuid : String) : Table :=
  { name := options.name
    partition_key := options.partition_key
    sort_key := options.sort_key
    attribute_definitions := options.attribute_definitions
    arn := hardcodedArn
    table_id := freshUuid
    partitions := [] }

/-- The result channel of `Table::insert`: `Ok(())`, a typed
`TableError`, or a panic (the `todo!()` arm for non-`S` key values). -/
inductive InsertResult where
  | ok
  | err (e : TableError)
  | panicked (msg : String)
  deriving DecidableEq, Repr

/-- Embedding of `self.partitions.entry(pkv).or_insert_with(Default::default)`
followed by `partition.insert(attributes)`: rewrite the first binding
for `pkv` or append a fresh partition holding the single row. -/
def upsertRow : List (String × Partition) → String → Item → List (String × Partition)
  | [], pkv, attributes => [(pkv, Partition.insert Partition.empty attributes)]
  | (k', p) :: rest, pkv, attributes =>
    if k' = pkv then (k', p.insert attributes) :: rest
    else (k', p) :: upsertRow rest pkv attributes

/-- Embedding of `Table::insert` (`src/src/table/mod.rs:57-80`), in state-passing
form: the returned table is the (possibly updated) `&mut self`.  The
partition-key attribute is looked up first; a missing key fails before
any state is touched, and a non-`S` key value hits the `todo!()` arm. -/
def Table.insert (t : Table) (attributes : Item) : InsertResult × Table :=
  match assocGet attributes t.partition_key with
  | none => (.err .MissingPartitionKey, t)
  | some (.S pkv) =>
    (.ok, { t with partitions := upsertRow t.partitions pkv attributes })
  | some _ => (.panicked "not yet implemented", t)

/-- Embedding of `Table::len`: `self.partitions.values().map(|p| p.item_count()).sum()`. -/
def Table.len (t : Table) : Nat :=
  (t.partitions.map (fun kp => kp.2.item_count)).sum

/-- The number of items (rows) actually stored in the table, across all
partitions.  This is what the specification calls the item count. -/
def Table.totalItems (t : Table) : Nat :=
  (t.partitions.map (fun kp => kp.2.rows.length)).sum

/-- All rows of all partitions of a table, in partition order. -/
def Table.allRows (t : Table) : List Item :=
  t.partitions.flatMap (fun kp => kp.2.rows)

/-- Embedding of `TableDescription` from `src/src/types.rs`, restricted to the
fields `Table::description` computes from the embedded state. -/
structure TableDescription where
  table_name : Option String
  table_status : Option String
  item_count : Option Nat
  key_schema : Option (List KeySchema)
  table_arn : Option String
  table_id : Option String
  deriving DecidableEq, Repr

/-- Embedding of `Table::description` (`src/src/table/mod.rs:88-114`). -/
def Table.description (t : Table) : TableDescription :=
  { table_name := some t.name
    table_status := some "ACTIVE"
    item_count := some t.len
    key_schema := some
      ([⟨t.partition_key, .HASH⟩] ++
        (match t.sort_key with
         | some sk => [⟨sk, .RANGE⟩]
         | none => []))
    table_arn := some t.arn
    table_id := some t.table_id }

/-- Rows of a partition all carry the attribute `pk ↦ S pkv`. -/
def Partition.itemsCarryKey (p : Partition) (pk pkv : String) : Bool :=
  p.rows.all (fun item => decide (assocGet item pk = some (.S pkv)))

/-- The partition-key invariant: every partition of the table indexes
only rows that carry the table's partition key mapped to the `S` string
the partition is stored under. -/
def Table.wf (t : Table) : Bool :=
  t.partitions.all (fun kp => kp.2.itemsCarryKey t.partition_key kp.1)

lemma upsertRow_wf (ps : List (String × Partition)) (pk pkv : String) (item : Item)
    (hps : ps.all (fun kp => kp.2.itemsCarryKey pk kp.1) = true)
    (hitem : assocGet item pk = some (.S pkv)) :
    (upsertRow ps pkv item).all (fun kp => kp.2.itemsCarryKey pk kp.1) = true := by
  induction ps with
  | nil =>
    simp only [upsertRow, List.all_cons, List.all_nil, Bool.and_true,
      Partition.itemsCarryKey, Partition.insert, Partition.empty, List.nil_append,
      List.all_cons, List.all_nil, Bool.and_true, decide_eq_true_eq]
    exact hitem
  | cons hd tl ih =>
    obtain ⟨k', p⟩ := hd
    simp only [List.all_cons, Bool.and_eq_true] at hps
    by_cases hk : k' = pkv
    · subst hk
      simp only [upsertRow, eq_self_iff_true, if_true, List.all_cons, Bool.and_eq_true]
      refine ⟨?_, hps.2⟩
      simp only [Partition.itemsCarryKey, Partition.insert, List.all_append,
        Bool.and_eq_true, List.all_cons, List.all_nil, Bool.and_true,
        decide_eq_true_eq]
      exact ⟨hps.1, hitem⟩
    · simp only [upsertRow, if_neg hk, List.all_cons, Bool.and_eq_true]
      exact ⟨hps.1, ih hps.2⟩

/-- Embedding of `Operator` from the parser module of `src/src/table/queries.rs`. -/
inductive Operator where
  | Eq
  | And
  deriving DecidableEq, Repr

/-- Embedding of `Node`, the condition-expression AST from the parser module of
`src/src/table/queries.rs`. -/
inductive Node where
  | Binop (op : Operator) (lhs rhs : Node)
  | FunctionCall (name : String) (args : List Node)
  | Attribute (s : String)
  | Placeholder (s : String)
  deriving Repr

/-- Embedding of `ExpressionAttributeNames`: `HashMap<&str, &str>`. -/
abbrev NamesMap := List (String × String)

/-- Embedding of `ExpressionAttributeValues`:
`HashMap<String, HashMap<AttributeType, String>>`.  The inner map is an
association list; `values().next()` is its head's payload. -/
abbrev ValuesMap := List (String × List (AttributeType × String))

/-- The result of a query path: a success, a typed `TableError`, or a
panic (`todo!()` / `unreachable!()` arms). -/
inductive Outcome (α : Type) where
  | ok (a : α)
  | err (e : TableError)
  | panicked (msg : String)
  deriving DecidableEq, Repr

/-- The row filter closure shared by the arms of `Partition::query`:
`row.get(key).map(|v| match v { S(s) => value == s, _ => todo!() }).unwrap_or(false)`.
`none` stands for the `todo!()` panic on a non-`S` attribute value. -/
def rowTest (row : Item) (key value : String) : Option Bool :=
  match assocGet row key with
  | none => some false
  | some (.S s) => some (decide (value = s))
  | some _ => none

/-- Embedding of `self.rows.iter().filter(..).cloned().collect()`, with the panic of
the filter closure surfaced: rows are tested front to back and the
first non-`S` attribute value aborts the query. -/
def filterEqRows (key value : String) : List Item → Outcome (List Item)
  | [] => .ok []
  | row :: rest =>
    match rowTest row key value with
    | none => .panicked "not yet implemented"
    | some b =>
      match filterEqRows key value rest with
      | .ok l => .ok (if b then row :: l else l)
      | .err e => .err e
      | .panicked m => .panicked m

/-- Embedding of `Partition::query` (`src/src/table/mod.rs:301-393`). -/
def Partition.query (p : Partition) (ast : Node) (names : NamesMap)
    (values : ValuesMap) : Outcome (List Item) :=
  match ast with
  | .Binop op lhs rhs =>
    match lhs, rhs, op with
    | .Attribute key, .Attribute value, .Eq => filterEqRows key value p.rows
    | .Placeholder key_name, .Attribute value, .Eq =>
      match assocGet names ("#" ++ key_name) with
      | none => .err (.NoAttributeName key_name)
      | some key => filterEqRows key value p.rows
    | .Attribute key, .Placeholder value_name, .Eq =>
      match assocGet values (":" ++ value_name) with
      | none => .err (.NoAttributeValue value_name)
      | some m =>
        match m.head? with
        | none => .err .InvalidAttributeMap
        | some (_, value) => filterEqRows key value p.rows
    | .Placeholder key_name, .Placeholder value_name, .Eq =>
      match assocGet names ("#" ++ key_name) with
      | none => .err (.NoAttributeName key_name)
      | some key =>
        match assocGet values (":" ++ value_name) with
        | none => .err (.NoAttributeValue value_name)
        | some m =>
          match m.head? with
          | none => .err .InvalidAttributeMap
          | some (_, value) => filterEqRows key value p.rows
    | _, _, _ => .panicked "not yet implemented"
  | _ => .panicked "not yet implemented"

/-- Embedding of `Table::query` after parsing (`src/src/table/mod.rs:126-247`):
the dispatch over the parsed AST.  `Table::query` itself is this
function composed with `queries::parse` on the expression string. -/
def Table.queryAst (t : Table) (ast : Node) (names : NamesMap)
    (values : ValuesMap) : Outcome (List Item) :=
  match ast with
  | .Binop .Eq lhs rhs =>
    match lhs, rhs with
    | .Attribute key, .Attribute value =>
      if key ≠ t.partition_key then .err .InvalidPartitionKey
      else
        match assocGet t.partitions value with
        | some p => .ok p.rows
        | none => .ok []
    | .Placeholder key_name, .Placeholder value_name =>
      match assocGet names ("#" ++ key_name) with
      | none => .err (.NoAttributeName key_name)
      | some key =>
        if key ≠ t.partition_key then .err .InvalidPartitionKey
        else
          match assocGet values (":" ++ value_name) with
          | none => .err (.NoAttributeValue value_name)
          | some m =>
            match m.head? with
            | none => .err .InvalidAttributeMap
            | some (_, value) =>
              match assocGet t.partitions value with
              | some p => .ok p.rows
              | none => .ok []
    | .Attribute key, .Placeholder value_name =>
      if key ≠ t.partition_key then .err .InvalidPartitionKey
      else
        match assocGet values (":" ++ value_name) with
        | none => .err (.NoAttributeValue value_name)
        | some m =>
          match m.head? with
          | none => .err .InvalidPartitionKey
          | some (_, value) =>
            match assocGet t.partitions value with
            | some p => .ok p.rows
            | none => .ok []
    | .Placeholder key_name, .Attribute value =>
      match assocGet names ("#" ++ key_name) with
      | none => .err (.NoAttributeName key_name)
      | some key =>
        if key ≠ t.partition_key then .err .InvalidPartitionKey
        else
          match assocGet t.partitions value with
          | some p => .ok p.rows
          | none => .ok []
    | _, _ => .panicked "internal error: entered unreachable code"
  | .Binop .And lhs rhs =>
    match lhs with
    | .Binop _ pk_lhs pk_rhs =>
      match pk_lhs, pk_rhs with
      | .Attribute _, .Attribute value =>
        match assocGet t.partitions value with
        | none => .err .InvalidPartitionKey
        | some p => p.query rhs names values
      | .Attribute _, .Placeholder value_name =>
        match assocGet values (":" ++ value_name) with
        | none => .err (.NoAttributeValue value_name)
        | some m =>
          match m.head? with
          | none => .err .InvalidAttributeMap
          | some (_, value) =>
            match assocGet t.partitions value with
            | none => .err .InvalidPartitionKey
            | some p => p.query rhs names values
      | _, _ => .panicked "internal error: entered unreachable code"
    | _ => .panicked "internal error: entered unreachable code"
  | _ => .panicked "not yet implemented"

/-- The outcome of the placeholder-substitution visitor: the rewritten
node, or a panic (`unreachable!()` / `.expect(..)`). -/
inductive VisitOutcome where
  | ok (n : Node)
  | panicked (msg : String)
  deriving Repr

/-- Embedding of `NodeVisitor::visit_placeholder` (`src/src/table/visitor.rs:78-108`):
try `ExpressionAttributeNames["#k"]`, then
`ExpressionAttributeValues[":k"]` taking the first payload of the inner
map; an empty inner map hits the `.expect(..)` panic and a double miss
hits `unreachable!()`. -/
def resolvePlaceholder (names : Option NamesMap) (values : Option ValuesMap)
    (k : String) : VisitOutcome :=
  match names.bind (fun ns => assocGet ns ("#" ++ k)) with
  | some v => .ok (.Attribute v)
  | none =>
    match values.bind (fun vs => assocGet vs (":" ++ k)) with
    | some m =>
      match m.head? with
      | some (_, v) => .ok (.Attribute v)
      | none => .panicked "attribute values map empty"
    | none => .panicked "internal error: entered unreachable code"

/-- Embedding of `NodeVisitor::visit` (`src/src/table/visitor.rs:66-74`) together
with the `walk_binop` dispatch (`src/src/table/visitor.rs:7-25`): a
`Binop` child that is itself a `Binop` is walked recursively, a
`Placeholder` child is substituted, and `FunctionCall` and `Attribute`
children are left alone (`walk_function_call` and `walk_attribute` are
no-ops), exactly as at the root. -/
def NodeVisitor.visit (names : Option NamesMap) (values : Option ValuesMap) :
    Node → VisitOutcome
  | .Binop op l r =>
    match NodeVisitor.visit names values l with
    | .panicked m => .panicked m
    | .ok l' =>
      match NodeVisitor.visit names values r with
      | .panicked m => .panicked m
      | .ok r' => .ok (.Binop op l' r')
  | .FunctionCall f args => .ok (.FunctionCall f args)
  | .Attribute s => .ok (.Attribute s)
  | .Placeholder k => resolvePlaceholder names values k

/-- No `Placeholder` remains at the root or under any chain of `Binop`
nodes (`FunctionCall` arguments are not inspected, matching what the
visitor walks). -/
def noBinopPlaceholders : Node → Bool
  | .Binop _ l r => noBinopPlaceholders l && noBinopPlaceholders r
  | .Placeholder _ => false
  | .Attribute _ => true
  | .FunctionCall _ _ => true

/-- Embedding of `Region` from `src/rynamodb/src/table_manager.rs`. -/
inductive Region where
  | UsEast1
  deriving DecidableEq, Repr

/-- The `Display` impl of `Region`. -/
def Region.display : Region → String
  | .UsEast1 => "us-east-1"

/-- Embedding of `TablesPerRegion`: `HashMap<Region, Vec<Table>>`. -/
structure TablesPerRegion where
  tables : List (Region × List Table)
  deriving DecidableEq, Repr

/-- Embedding of `TableManager`: `HashMap<String, TablesPerRegion>` keyed by
account. -/
structure TableManager where
  per_account : List (String × TablesPerRegion)
  deriving DecidableEq, Repr

/-- Embedding of `CreateTableInput` from `src/rynamodb/src/types.rs`. -/
structure CreateTableInput where
  table_name : String
  attribute_definitions : List AttributeDefinition
  key_schema : List KeySchema
  deriving DecidableEq, Repr

/-- Embedding of `From<CreateTableInput> for TableOptions`
(`src/src/table/mod.rs:263-289`): the loop keeps the last `HASH` entry
as partition key and the last `RANGE` entry as sort key. -/
def tableOptionsOfInput (input : CreateTableInput) : TableOptions :=
  { name := input.table_name
    partition_key := input.key_schema.foldl
      (fun acc ks => if ks.key_type = .HASH then ks.attribute_name else acc) ""
    sort_key := input.key_schema.foldl
      (fun acc ks => if ks.key_type = .RANGE then some ks.attribute_name else acc) none
    attribute_definitions := input.attribute_definitions }

/-- Modelled from the spec: the rynamodb crate's table module
(`rynamodb/src/table.rs`, declared as `mod table` in
`src/rynamodb/src/lib.rs` and called as
`table::Table::new(region, &account_id, input.into())`) is absent from
the sources.  Per the spec it gives the table the input's name, the ARN
`arn:aws:dynamodb:{region}:{account}:table/{name}`, a fresh UUID id and
an empty partition map. -/
def Table.newSpec (region : Region) (account : String) (options : TableOptions)
    (freshUuid : String) : Table :=
  { name := options.name
    partition_key := options.partition_key
    sort_key := options.sort_key
    attribute_definitions := options.attribute_definitions
    arn := "arn:aws:dynamodb:" ++ region.display ++ ":" ++ account ++
      ":table/" ++ options.name
    table_id := freshUuid
    partitions := [] }

/-- Embedding of `entry.tables.entry(region).or_default().push(table)`. -/
def upsertRegionTables : List (Region × List Table) → Region → Table →
    List (Region × List Table)
  | [], r, t => [(r, [t])]
  | (r', l) :: rest, r, t =>
    if r' = r then (r', l ++ [t]) :: rest
    else (r', l) :: upsertRegionTables rest r t

/-- Embedding of `self.per_account.entry(account_id).or_default()` followed by the
per-region push. -/
def upsertAccount : List (String × TablesPerRegion) → String → Region → Table →
    List (String × TablesPerRegion)
  | [], a, r, t => [(a, ⟨upsertRegionTables [] r t⟩)]
  | (a', tpr) :: rest, a, r, t =>
    if a' = a then (a', ⟨upsertRegionTables tpr.tables r t⟩) :: rest
    else (a', tpr) :: upsertAccount rest a r t

/-- Embedding of `TableManager::new_table` (`src/rynamodb/src/table_manager.rs:34-47`):
build the table and push it onto the `(account, region)` list, with no
check whatsoever against existing table names. -/
def TableManager.new_table (m : TableManager) (account : String) (region : Region)
    (input : CreateTableInput) (freshUuid : String) : Table × TableManager :=
  let table := Table.newSpec region account (tableOptionsOfInput input) freshUuid
  (table, ⟨upsertAccount m.per_account account region table⟩)

/-- The inner loop of `TableManager::get_table`: first table in the
list whose name matches. -/
def findInTables : List Table → String → Option Table
  | [], _ => none
  | t :: rest, tn => if t.name = tn then some t else findInTables rest tn

/-- Scan the per-region lists of one account. -/
def findInRegions : List (Region × List Table) → String → Option Table
  | [], _ => none
  | (_, ts) :: rest, tn =>
    match findInTables ts tn with
    | some t => some t
    | none => findInRegions rest tn

/-- Scan all accounts. -/
def findInAccounts : List (String × TablesPerRegion) → String → Option Table
  | [], _ => none
  | (_, tpr) :: rest, tn =>
    match findInRegions tpr.tables tn with
    | some t => some t
    | none => findInAccounts rest tn

/-- Embedding of `TableManager::get_table` (`src/rynamodb/src/table_manager.rs:49-64`):
linear scan across accounts, regions and tables, first match by name. -/
def TableManager.get_table (m : TableManager) (tn : String) : Option Table :=
  findInAccounts m.per_account tn

/-- Replace the first table named `tn` in a table list. -/
def replaceInTables : List Table → String → Table → Option (List Table)
  | [], _, _ => none
  | t :: rest, tn, t' =>
    if t.name = tn then some (t' :: rest)
    else (replaceInTables rest tn t').map (fun l => t :: l)

/-- Replace the first table named `tn` across one account's regions. -/
def replaceInRegions : List (Region × List Table) → String → Table →
    Option (List (Region × List Table))
  | [], _, _ => none
  | (r, ts) :: rest, tn, t' =>
    match replaceInTables ts tn t' with
    | some ts' => some ((r, ts') :: rest)
    | none => (replaceInRegions rest tn t').map (fun l => (r, ts) :: l)

/-- Replace the first table named `tn` across all accounts. -/
def replaceInAccounts : List (String × TablesPerRegion) → String → Table →
    Option (List (String × TablesPerRegion))
  | [], _, _ => none
  | (a, tpr) :: rest, tn, t' =>
    match replaceInRegions tpr.tables tn t' with
    | some ts' => some ((a, ⟨ts'⟩) :: rest)
    | none => (replaceInAccounts rest tn t').map (fun l => (a, tpr) :: l)

/-- Writing back through `TableManager::get_table_mut`
(`src/rynamodb/src/table_manager.rs:66-83`): the slot the linear scan
finds first is overwritten in place; the scan order is the same as in
`get_table`, so replacing the first name match models the `&mut`
borrow exactly. -/
def TableManager.replaceTable (m : TableManager) (tn : String) (t' : Table) :
    TableManager :=
  match replaceInAccounts m.per_account tn t' with
  | some pa => ⟨pa⟩
  | none => m

/-- Embedding of `BatchPutRequestItem` from `src/rynamodb/src/types.rs`. -/
structure BatchPutRequestItem where
  item : Item
  deriving DecidableEq, Repr

/-- Embedding of `BatchPutRequest` from `src/rynamodb/src/types.rs`. -/
structure BatchPutRequest where
  put_request : BatchPutRequestItem
  deriving DecidableEq, Repr

/-- Embedding of `BatchWriteInput` from `src/rynamodb/src/types.rs`:
`RequestItems: HashMap<String, Vec<BatchPutRequest>>`.  The map is
embedded as an association list in iteration order; `HashMap` keys are
unique, which the theorems below carry as a `Nodup` hypothesis. -/
structure BatchWriteInput where
  request_items : List (String × List BatchPutRequest)
  deriving DecidableEq, Repr

/-- A computation that either completes or panics. -/
inductive PanicOr (α : Type) where
  | ok (a : α)
  | panicked (msg : String)
  deriving DecidableEq, Repr

/-- Embedding of `unprocessed_items.entry(table_name).or_default().push(req)`. -/
def pushUnp (u : List (String × List BatchPutRequest)) (tn : String)
    (req : BatchPutRequest) : List (String × List BatchPutRequest) :=
  match u with
  | [] => [(tn, [req])]
  | (k, l) :: rest =>
    if k = tn then (k, l ++ [req]) :: rest else (k, l) :: pushUnp rest tn req

/-- Push a batch of requests one by one, as the `for req` loops do. -/
def addUnp (u : List (String × List BatchPutRequest)) (tn : String)
    (reqs : List BatchPutRequest) : List (String × List BatchPutRequest) :=
  reqs.foldl (fun acc r => pushUnp acc tn r) u

/-- The inner `for req in put_request` loop of
`TableManager::batch_write_item` for a table that was found: insert
each item in order, collecting the requests whose insert returned an
error; an insert that panics aborts the whole call. -/
def runPuts (t : Table) : List BatchPutRequest →
    PanicOr (List BatchPutRequest × Table)
  | [] => .ok ([], t)
  | req :: rest =>
    match t.insert req.put_request.item with
    | (.ok, t1) => runPuts t1 rest
    | (.err _, t1) =>
      match runPuts t1 rest with
      | .ok (failed, t2) => .ok (req :: failed, t2)
      | .panicked m => .panicked m
    | (.panicked m, _) => .panicked m

/-- The outer loop of `TableManager::batch_write_item`
(`src/rynamodb/src/table_manager.rs:104-139`), threading the manager
and the accumulated `unprocessed_items`. -/
def bwiGo : TableManager → List (String × List BatchPutRequest) →
    List (String × List BatchPutRequest) →
    PanicOr (List (String × List BatchPutRequest) × TableManager)
  | m, unp, [] => .ok (unp, m)
  | m, unp, (tn, reqs) :: rest =>
    match m.get_table tn with
    | none => bwiGo m (addUnp unp tn reqs) rest
    | some t =>
      match runPuts t reqs with
      | .panicked msg => .panicked msg
      | .ok (failed, t') => bwiGo (m.replaceTable tn t') (addUnp unp tn failed) rest

/-- Embedding of `TableManager::batch_write_item`. -/
def TableManager.batch_write_item (m : TableManager) (input : BatchWriteInput) :
    PanicOr (List (String × List BatchPutRequest) × TableManager) :=
  bwiGo m [] input.request_items

/-- Table names are unique within every `(account, region)` pair. -/
def TableManager.namesUnique (m : TableManager) : Prop :=
  ∀ acc ∈ m.per_account, ∀ rt ∈ acc.2.tables, (rt.2.map Table.name).Nodup

instance (m : TableManager) : Decidable m.namesUnique := by
  unfold TableManager.namesUnique
  infer_instance

/-- Every table name stored anywhere in the manager. -/
def TableManager.allNames (m : TableManager) : List String :=
  m.per_account.flatMap (fun acc => acc.2.tables.flatMap (fun rt => rt.2.map Table.name))

/-! ## Verified properties -/

/-- C1: every partition of a table indexes only items that carry the
table's partition-key attribute with the `S` string value the partition
is stored under; `Table::new` establishes the invariant (no
partitions) and `Table::insert` preserves it on every outcome, the
remaining table operations being read-only on `partitions`. -/
theorem c1_partition_key_invariant :
    (∀ (options : TableOptions) (freshUuid : String),
      (Table.new options freshUuid).wf = true) ∧
    (∀ (t : Table) (item : Item), t.wf = true → ((t.insert item).2).wf = true) := by
  constructor
  · intro options freshUuid
    rfl
  · intro t item hwf
    unfold Table.insert
    cases h : assocGet item t.partition_key with
    | none => simpa using hwf
    | some v =>
      cases v with
      | S pkv =>
        simp only [Table.wf] at hwf ⊢
        exact upsertRow_wf _ _ _ _ hwf h
      | N n => simpa using hwf
      | B b => simpa using hwf

def tableC1 : Table :=
  Table.new { name := "t1", partition_key := "pk", sort_key := some "sk",
              attribute_definitions := [] } "id-1"

theorem c1_witness :
    ((tableC1.insert [("pk", .S "a")]).2).wf = true :=
  c1_partition_key_invariant.2 tableC1 [("pk", .S "a")] (by rfl)

/-- C10: `Table::insert` on an item lacking the partition-key attribute
fails with `MissingPartitionKey` and returns the table exactly as it
was — the lookup precedes every mutation, so no partition is created. -/
theorem c10_insert_atomic_on_missing_key (t : Table) (item : Item)
    (h : assocGet item t.partition_key = none) :
    t.insert item = (.err .MissingPartitionKey, t) := by
  unfold Table.insert
  rw [h]

def tableC10 : Table :=
  Table.new { name := "t1", partition_key := "pk", sort_key := some "sk",
              attribute_definitions := [] } "id-1"

theorem c10_witness :
    tableC10.insert [("sk", .S "b")] = (.err .MissingPartitionKey, tableC10) :=
  c10_insert_atomic_on_missing_key tableC10 [("sk", .S "b")] (by rfl)

def tableC6 : Table :=
  Table.new { name := "t1", partition_key := "pk", sort_key := none,
              attribute_definitions := [] } "id-1"

/-- C6: an item whose partition-key attribute is present but not of the
`S` variant drives `Table::insert` into the `todo!()` arm — a panic,
not a typed `UnsupportedKeyType` failure (no such variant exists in
`TableError`). -/
theorem c6_insert_non_string_key_panics :
    tableC6.insert [("pk", .N "5")] = (.panicked "not yet implemented", tableC6) := by
  rfl

def optionsC5 : TableOptions :=
  { name := "t1", partition_key := "pk", sort_key := none,
    attribute_definitions := [] }

/-- C5: `Table::new` does not derive the ARN from account, region and
name; it assigns every table the same hard-coded string, which differs
from the `arn:aws:dynamodb:{region}:{account}:table/{name}` format for
the table named `t1` under the default account and region (the id, in
contrast, is the freshly generated UUID). -/
theorem c5_arn_hardcoded :
    (Table.new optionsC5 "uuid-1").arn = hardcodedArn ∧
    hardcodedArn ≠ "arn:aws:dynamodb:us-east-1:000000000000:table/t1" ∧
    (Table.new optionsC5 "uuid-1").table_id = "uuid-1" :=
  ⟨rfl, by decide, rfl⟩

def tableC4 : Table :=
  Table.new { name := "t1", partition_key := "pk", sort_key := some "sk",
              attribute_definitions := [] } "id-1"

def tableC4a : Table := (tableC4.insert [("pk", .S "a"), ("sk", .S "b")]).2

/-- C4: `description()` does not report the number of items:
`Partition::item_count` sums the sizes of the attribute maps, so one
inserted item with two attributes is reported as an item count of 2
while the table stores exactly 1 item (a fresh table does report 0). -/
theorem c4_item_count_counts_attributes :
    tableC4a.description.item_count = some 2 ∧
    tableC4a.totalItems = 1 ∧
    tableC4.description.item_count = some 0 := by
  refine ⟨by rfl, by rfl, by rfl⟩

def rowC3 : Item := [("pk", .S "abc"), ("sk", .S "def")]

def tableC3 : Table :=
  { name := "t", arn := "", table_id := "", attribute_definitions := [],
    partition_key := "pk", sort_key := some "sk",
    partitions := [("abc", ⟨[rowC3]⟩)] }

def astC3 : Node :=
  .Binop .And (.Binop .Eq (.Attribute "wrong") (.Attribute "abc"))
    (.Binop .Eq (.Attribute "sk") (.Attribute "def"))

/-- C3 counterexample: in the `And` branch the left-hand attribute name
is never compared with the partition key: querying
`wrong = abc AND sk = def` against a table whose partition key is `pk`
succeeds instead of failing with `InvalidPartitionKey`. -/
theorem c3_counterexample :
    tableC3.queryAst astC3 [] [] = .ok [rowC3] ∧
    tableC3.queryAst astC3 [] [] ≠ .err .InvalidPartitionKey ∧
    "wrong" ≠ tableC3.partition_key := by
  refine ⟨by rfl, by decide, by decide⟩

/-- C3 amended: in the composite `And` branch the left-hand attribute
name of the partition-key condition is ignored (the result does not
depend on it, so no `InvalidPartitionKey` arises from a mismatched
key); `InvalidPartitionKey` is returned exactly when `partitions[V]` is
absent, and otherwise the right-hand side is delegated to that
partition's query. -/
theorem c3_and_branch_amended (t : Table) (names : NamesMap) (values : ValuesMap)
    (k k' v : String) (rhs : Node) :
    (t.queryAst (.Binop .And (.Binop .Eq (.Attribute k) (.Attribute v)) rhs) names values =
      t.queryAst (.Binop .And (.Binop .Eq (.Attribute k') (.Attribute v)) rhs) names values) ∧
    (assocGet t.partitions v = none →
      t.queryAst (.Binop .And (.Binop .Eq (.Attribute k) (.Attribute v)) rhs) names values =
        .err .InvalidPartitionKey) ∧
    (∀ p, assocGet t.partitions v = some p →
      t.queryAst (.Binop .And (.Binop .Eq (.Attribute k) (.Attribute v)) rhs) names values =
        p.query rhs names values) := by
  refine ⟨rfl, fun h => ?_, fun p h => ?_⟩ <;>
    simp only [Table.queryAst, h]

theorem c3_witness :
    tableC3.queryAst (.Binop .And (.Binop .Eq (.Attribute "pk") (.Attribute "zzz"))
        (.Binop .Eq (.Attribute "sk") (.Attribute "def"))) [] [] =
      .err .InvalidPartitionKey :=
  (c3_and_branch_amended tableC3 [] [] "pk" "pk" "zzz"
    (.Binop .Eq (.Attribute "sk") (.Attribute "def"))).2.1 (by rfl)

/-- C9: for a single-equality key condition, `Table::query` computes
the same result whether key and value are written as literals or as
placeholders, whenever `ExpressionAttributeNames` binds `#kn` to the
literal key and `ExpressionAttributeValues` binds `:vn` to a map whose
first payload is the literal value; the same holds for both mixed
forms. -/
theorem c9_placeholder_literal_equivalence (t : Table) (names : NamesMap)
    (values : ValuesMap) (k v kn vn : String) (ty : AttributeType)
    (l : List (AttributeType × String))
    (hn : assocGet names ("#" ++ kn) = some k)
    (hv : assocGet values (":" ++ vn) = some l)
    (hh : l.head? = some (ty, v)) :
    (t.queryAst (.Binop .Eq (.Placeholder kn) (.Placeholder vn)) names values =
      t.queryAst (.Binop .Eq (.Attribute k) (.Attribute v)) names values) ∧
    (t.queryAst (.Binop .Eq (.Attribute k) (.Placeholder vn)) names values =
      t.queryAst (.Binop .Eq (.Attribute k) (.Attribute v)) names values) ∧
    (t.queryAst (.Binop .Eq (.Placeholder kn) (.Attribute v)) names values =
      t.queryAst (.Binop .Eq (.Attribute k) (.Attribute v)) names values) := by
  refine ⟨?_, ?_, ?_⟩ <;> simp only [Table.queryAst, hn, hv, hh]

def tableC9 : Table :=
  { name := "t", arn := "", table_id := "", attribute_definitions := [],
    partition_key := "pk", sort_key := some "sk",
    partitions := [("abc", ⟨[rowC3]⟩)] }

theorem c9_witness :
    tableC9.queryAst (.Binop .Eq (.Placeholder "K") (.Placeholder "val"))
        [("#K", "pk")] [(":val", [(.S, "abc")])] =
      tableC9.queryAst (.Binop .Eq (.Attribute "pk") (.Attribute "abc"))
        [("#K", "pk")] [(":val", [(.S, "abc")])] :=
  (c9_placeholder_literal_equivalence tableC9 [("#K", "pk")]
    [(":val", [(.S, "abc")])] "pk" "abc" "K" "val" .S [(.S, "abc")]
    (by rfl) (by rfl) (by rfl)).1

/-- C2 counterexample: the substitution pass leaves `Placeholder`
arguments of `FunctionCall` nodes untouched even when the placeholder
maps bind them (`walk_function_call` is a no-op), and a placeholder
that neither map binds makes the visitor panic (`unreachable!()`)
instead of returning the typed `NoAttributeName`/`NoAttributeValue`
errors. -/
theorem c2_counterexample :
    NodeVisitor.visit (some [("#a", "x")]) (some [])
        (.FunctionCall "begins_with" [.Placeholder "a"]) =
      .ok (.FunctionCall "begins_with" [.Placeholder "a"]) ∧
    (Node.FunctionCall "begins_with" [.Placeholder "a"]) ≠
      (Node.FunctionCall "begins_with" [.Attribute "x"]) ∧
    NodeVisitor.visit none none (.Placeholder "z") =
      .panicked "internal error: entered unreachable code" := by
  refine ⟨rfl, by simp, rfl⟩

lemma visit_ok_noBinopPlaceholders (names : Option NamesMap)
    (values : Option ValuesMap) :
    ∀ (n n' : Node), NodeVisitor.visit names values n = .ok n' →
      noBinopPlaceholders n' = true
  | .Binop op l r, n', h => by
    simp only [NodeVisitor.visit] at h
    cases hl : NodeVisitor.visit names values l with
    | panicked m =>
      simp only [hl] at h
      exact VisitOutcome.noConfusion h
    | ok l' =>
      simp only [hl] at h
      cases hr : NodeVisitor.visit names values r with
      | panicked m =>
        simp only [hr] at h
        exact VisitOutcome.noConfusion h
      | ok r' =>
        simp only [hr] at h
        cases h
        simp only [noBinopPlaceholders, Bool.and_eq_true]
        exact ⟨visit_ok_noBinopPlaceholders names values l l' hl,
          visit_ok_noBinopPlaceholders names values r r' hr⟩
  | .FunctionCall f args, n', h => by
    simp only [NodeVisitor.visit] at h
    cases h
    rfl
  | .Attribute s, n', h => by
    simp only [NodeVisitor.visit] at h
    cases h
    rfl
  | .Placeholder k, n', h => by
    simp only [NodeVisitor.visit, resolvePlaceholder] at h
    cases hn : names.bind (fun ns => assocGet ns ("#" ++ k)) with
    | some v =>
      simp only [hn] at h
      cases h
      rfl
    | none =>
      simp only [hn] at h
      cases hv : values.bind (fun vs => assocGet vs (":" ++ k)) with
      | none =>
        simp only [hv] at h
        exact VisitOutcome.noConfusion h
      | some m =>
        simp only [hv] at h
        cases hm : m.head? with
        | none =>
          simp only [hm] at h
          exact VisitOutcome.noConfusion h
        | some p =>
          obtain ⟨ty, v⟩ := p
          simp only [hm] at h
          cases h
          rfl

/-- C2 amended: the substitution pass replaces every `Placeholder(k)`
that sits at the root or below `Binop` nodes with `Attribute(v)`,
resolving `v` via `ExpressionAttributeNames["#k"]` first and then via
`ExpressionAttributeValues[":k"]` (first payload of the inner map), and
leaves `Attribute` nodes and `FunctionCall` nodes — including any
`Placeholder` arguments they hold — unchanged; when both lookups fail
the pass panics (`unreachable!()`) rather than returning a typed
error.  Consequently a successful pass leaves no placeholder at the
root or under `Binop` chains. -/
theorem c2_substitution_amended :
    (∀ (names : Option NamesMap) (values : Option ValuesMap) (f : String)
      (args : List Node),
      NodeVisitor.visit names values (.FunctionCall f args) =
        .ok (.FunctionCall f args)) ∧
    (∀ (names : Option NamesMap) (values : Option ValuesMap) (s : String),
      NodeVisitor.visit names values (.Attribute s) = .ok (.Attribute s)) ∧
    (∀ (names : Option NamesMap) (values : Option ValuesMap) (k v : String),
      names.bind (fun ns => assocGet ns ("#" ++ k)) = some v →
      NodeVisitor.visit names values (.Placeholder k) = .ok (.Attribute v)) ∧
    (∀ (names : Option NamesMap) (values : Option ValuesMap) (k : String)
      (m : List (AttributeType × String)) (ty : AttributeType) (v : String),
      names.bind (fun ns => assocGet ns ("#" ++ k)) = none →
      values.bind (fun vs => assocGet vs (":" ++ k)) = some m →
      m.head? = some (ty, v) →
      NodeVisitor.visit names values (.Placeholder k) = .ok (.Attribute v)) ∧
    (∀ (names : Option NamesMap) (values : Option ValuesMap) (k : String),
      names.bind (fun ns => assocGet ns ("#" ++ k)) = none →
      values.bind (fun vs => assocGet vs (":" ++ k)) = none →
      NodeVisitor.visit names values (.Placeholder k) =
        .panicked "internal error: entered unreachable code") ∧
    (∀ (names : Option NamesMap) (values : Option ValuesMap) (n n' : Node),
      NodeVisitor.visit names values n = .ok n' →
      noBinopPlaceholders n' = true) := by
  refine ⟨fun _ _ _ _ => rfl, fun _ _ _ => rfl, ?_, ?_, ?_, ?_⟩
  · intro names values k v h
    simp only [NodeVisitor.visit, resolvePlaceholder, h]
  · intro names values k m ty v h1 h2 h3
    simp only [NodeVisitor.visit, resolvePlaceholder, h1, h2, h3]
  · intro names values k h1 h2
    simp only [NodeVisitor.visit, resolvePlaceholder, h1, h2]
  · exact fun names values n n' h => visit_ok_noBinopPlaceholders names values n n' h

theorem c2_witness :
    NodeVisitor.visit (some [("#a", "x")]) none (.Placeholder "a") =
      .ok (.Attribute "x") ∧
    noBinopPlaceholders (.Attribute "x") = true :=
  ⟨c2_substitution_amended.2.2.1 (some [("#a", "x")]) none "a" "x" (by rfl),
   c2_substitution_amended.2.2.2.2.2 (some [("#a", "x")]) none (.Placeholder "a")
     (.Attribute "x")
     (c2_substitution_amended.2.2.1 (some [("#a", "x")]) none "a" "x" (by rfl))⟩

def inputC7 : CreateTableInput :=
  { table_name := "t", attribute_definitions := [],
    key_schema := [⟨"pk", .HASH⟩] }

def managerC7 : TableManager :=
  (((TableManager.mk []).new_table "000000000000" .UsEast1 inputC7 "u1").2.new_table
    "000000000000" .UsEast1 inputC7 "u2").2

/-- C7 counterexample: `new_table` never checks existing names, so two
`CreateTable` calls for the same name under the same account and region
produce a reachable manager state holding two tables named `t` in one
`(account, region)` list. -/
theorem c7_counterexample : ¬ managerC7.namesUnique := by decide

lemma upsertRegionTables_nodup (rs : List (Region × List Table)) (r : Region)
    (t : Table)
    (h1 : ∀ rt ∈ rs, (rt.2.map Table.name).Nodup)
    (h2 : t.name ∉ rs.flatMap (fun rt => rt.2.map Table.name)) :
    ∀ rt ∈ upsertRegionTables rs r t, (rt.2.map Table.name).Nodup := by
  induction rs with
  | nil =>
    intro rt hrt
    simp only [upsertRegionTables, List.mem_singleton] at hrt
    subst hrt
    simp
  | cons hd tl ih =>
    obtain ⟨r', l⟩ := hd
    simp only [List.flatMap_cons, List.mem_append] at h2
    push_neg at h2
    intro rt hrt
    by_cases hr : r' = r
    · subst hr
      simp only [upsertRegionTables, eq_self_iff_true, if_true, List.mem_cons] at hrt
      rcases hrt with hrt | hrt
      · subst hrt
        simp only [List.map_append, List.map_cons, List.map_nil]
        refine List.Nodup.append (h1 (r', l) (List.mem_cons_self _ _))
          (List.nodup_singleton _) ?_
        intro x hx hx'
        simp only [List.mem_singleton] at hx'
        subst hx'
        exact h2.1 hx
      · exact h1 rt (List.mem_cons_of_mem _ hrt)
    · cases r'
      cases r
      exact absurd rfl hr

lemma upsertAccount_namesUnique (accs : List (String × TablesPerRegion))
    (a : String) (r : Region) (t : Table)
    (h1 : ∀ acc ∈ accs, ∀ rt ∈ acc.2.tables, (rt.2.map Table.name).Nodup)
    (h2 : t.name ∉ accs.flatMap
      (fun acc => acc.2.tables.flatMap (fun rt => rt.2.map Table.name))) :
    ∀ acc ∈ upsertAccount accs a r t, ∀ rt ∈ acc.2.tables,
      (rt.2.map Table.name).Nodup := by
  induction accs with
  | nil =>
    intro acc hacc
    simp only [upsertAccount, List.mem_singleton] at hacc
    subst hacc
    intro rt hrt
    simp only [upsertRegionTables, List.mem_singleton] at hrt
    subst hrt
    simp
  | cons hd tl ih =>
    obtain ⟨a', tpr⟩ := hd
    simp only [List.flatMap_cons, List.mem_append] at h2
    push_neg at h2
    intro acc hacc
    by_cases ha : a' = a
    · subst ha
      simp only [upsertAccount, eq_self_iff_true, if_true, List.mem_cons] at hacc
      rcases hacc with hacc | hacc
      · subst hacc
        exact upsertRegionTables_nodup tpr.tables r t
          (h1 (a', tpr) (List.mem_cons_self _ _)) h2.1
      · exact fun rt hrt => h1 acc (List.mem_cons_of_mem _ hacc) rt hrt
    · simp only [upsertAccount, if_neg ha, List.mem_cons] at hacc
      rcases hacc with hacc | hacc
      · subst hacc
        exact h1 (a', tpr) (List.mem_cons_self _ _)
      · exact ih (fun e he => h1 e (List.mem_cons_of_mem _ he)) h2.2 acc hacc

/-- C7 amended: `new_table` does not enforce name uniqueness — it
appends unconditionally, and the counterexample exhibits a reachable
state with a duplicated name.  Uniqueness within every
`(account, region)` pair is preserved only when the created name is
fresh: from a manager with unique names, `new_table` for a name not
stored anywhere keeps names unique. -/
theorem c7_uniqueness_amended (m : TableManager) (account : String)
    (region : Region) (input : CreateTableInput) (freshUuid : String)
    (h1 : m.namesUnique) (h2 : input.table_name ∉ m.allNames) :
    ((m.new_table account region input freshUuid).2).namesUnique := by
  intro acc hacc rt hrt
  have hname : (Table.newSpec region account (tableOptionsOfInput input)
      freshUuid).name = input.table_name := rfl
  refine upsertAccount_namesUnique m.per_account account region _ h1 ?_ acc hacc rt hrt
  rw [hname]
  exact h2

theorem c7_witness : ((TableManager.mk []).new_table "000000000000" .UsEast1
    inputC7 "u1").2.namesUnique :=
  c7_uniqueness_amended (TableManager.mk []) "000000000000" .UsEast1 inputC7 "u1"
    (by decide) (by decide)

lemma insert_name (t : Table) (i : Item) : ((t.insert i).2).name = t.name := by
  unfold Table.insert
  cases h : assocGet i t.partition_key with
  | none => rfl
  | some v => cases v <;> rfl

lemma upsertRow_mem_self (ps : List (String × Partition)) (k : String) (i : Item) :
    i ∈ (upsertRow ps k i).flatMap (fun kp => kp.2.rows) := by
  induction ps with
  | nil => simp [upsertRow, Partition.insert, Partition.empty]
  | cons hd tl ih =>
    obtain ⟨k', p⟩ := hd
    by_cases hk : k' = k
    · subst hk
      simp [upsertRow, Partition.insert]
    · simp only [upsertRow, if_neg hk, List.flatMap_cons, List.mem_append]
      exact Or.inr ih

lemma upsertRow_mem_mono (ps : List (String × Partition)) (k : String) (i x : Item)
    (hx : x ∈ ps.flatMap (fun kp => kp.2.rows)) :
    x ∈ (upsertRow ps k i).flatMap (fun kp => kp.2.rows) := by
  induction ps with
  | nil => simp at hx
  | cons hd tl ih =>
    obtain ⟨k', p⟩ := hd
    simp only [List.flatMap_cons, List.mem_append] at hx
    by_cases hk : k' = k
    · subst hk
      simp only [upsertRow, eq_self_iff_true, if_true, List.flatMap_cons,
        List.mem_append, Partition.insert]
      rcases hx with hx | hx
      · exact Or.inl (Or.inl hx)
      · exact Or.inr hx
    · simp only [upsertRow, if_neg hk, List.flatMap_cons, List.mem_append]
      rcases hx with hx | hx
      · exact Or.inl hx
      · exact Or.inr (ih hx)

lemma insert_allRows_mono (t : Table) (i x : Item) (hx : x ∈ t.allRows) :
    x ∈ ((t.insert i).2).allRows := by
  unfold Table.insert
  cases h : assocGet i t.partition_key with
  | none => exact hx
  | some v =>
    cases v with
    | S pkv => exact upsertRow_mem_mono t.partitions pkv i x hx
    | N n => exact hx
    | B b => exact hx

lemma insert_ok_item_mem (t t' : Table) (i : Item)
    (h : t.insert i = (.ok, t')) : i ∈ t'.allRows := by
  unfold Table.insert at h
  cases hg : assocGet i t.partition_key with
  | none =>
    simp only [hg] at h
    cases h
  | some v =>
    cases v with
    | S pkv =>
      simp only [hg] at h
      cases h
      exact upsertRow_mem_self t.partitions pkv i
    | N n =>
      simp only [hg] at h
      cases h
    | B b =>
      simp only [hg] at h
      cases h

lemma runPuts_name (reqs : List BatchPutRequest) :
    ∀ (t : Table) (failed : List BatchPutRequest) (t' : Table),
      runPuts t reqs = .ok (failed, t') → t'.name = t.name := by
  induction reqs with
  | nil =>
    intro t failed t' h
    simp only [runPuts] at h
    cases h
    rfl
  | cons req rest ih =>
    intro t failed t' h
    simp only [runPuts] at h
    cases hi : t.insert req.put_request.item with
    | mk res t1 =>
      have hname : t1.name = t.name := by
        simpa only [hi] using insert_name t req.put_request.item
      cases res with
      | ok =>
        simp only [hi] at h
        rw [ih t1 failed t' h, hname]
      | err e =>
        simp only [hi] at h
        cases hrest : runPuts t1 rest with
        | panicked m =>
          simp only [hrest] at h
          exact PanicOr.noConfusion h
        | ok p =>
          obtain ⟨failed0, t2⟩ := p
          simp only [hrest] at h
          cases h
          rw [ih t1 failed0 t' hrest, hname]
      | panicked m =>
        simp only [hi] at h
        exact PanicOr.noConfusion h

lemma runPuts_allRows_mono (reqs : List BatchPutRequest) :
    ∀ (t : Table) (failed : List BatchPutRequest) (t' : Table) (x : Item),
      runPuts t reqs = .ok (failed, t') → x ∈ t.allRows → x ∈ t'.allRows := by
  induction reqs with
  | nil =>
    intro t failed t' x h hx
    simp only [runPuts] at h
    cases h
    exact hx
  | cons req rest ih =>
    intro t failed t' x h hx
    simp only [runPuts] at h
    cases hi : t.insert req.put_request.item with
    | mk res t1 =>
      have hx1 : x ∈ t1.allRows := by
        simpa only [hi] using insert_allRows_mono t req.put_request.item x hx
      cases res with
      | ok =>
        simp only [hi] at h
        exact ih t1 failed t' x h hx1
      | err e =>
        simp only [hi] at h
        cases hrest : runPuts t1 rest with
        | panicked m =>
          simp only [hrest] at h
          exact PanicOr.noConfusion h
        | ok p =>
          obtain ⟨failed0, t2⟩ := p
          simp only [hrest] at h
          cases h
          exact ih t1 failed0 t' x hrest hx1
      | panicked m =>
        simp only [hi] at h
        exact PanicOr.noConfusion h

lemma runPuts_sublist (reqs : List BatchPutRequest) :
    ∀ (t : Table) (failed : List BatchPutRequest) (t' : Table),
      runPuts t reqs = .ok (failed, t') → failed.Sublist reqs := by
  induction reqs with
  | nil =>
    intro t failed t' h
    simp only [runPuts] at h
    cases h
    exact List.Sublist.refl _
  | cons req rest ih =>
    intro t failed t' h
    simp only [runPuts] at h
    cases hi : t.insert req.put_request.item with
    | mk res t1 =>
      cases res with
      | ok =>
        simp only [hi] at h
        exact (ih t1 failed t' h).cons _
      | err e =>
        simp only [hi] at h
        cases hrest : runPuts t1 rest with
        | panicked m =>
          simp only [hrest] at h
          exact PanicOr.noConfusion h
        | ok p =>
          obtain ⟨failed0, t2⟩ := p
          simp only [hrest] at h
          cases h
          exact (ih t1 failed0 t' hrest).cons₂ _
      | panicked m =>
        simp only [hi] at h
        exact PanicOr.noConfusion h

lemma runPuts_ok_mem (reqs : List BatchPutRequest) :
    ∀ (t : Table) (failed : List BatchPutRequest) (t' : Table),
      runPuts t reqs = .ok (failed, t') →
      ∀ req ∈ reqs, req ∉ failed → req.put_request.item ∈ t'.allRows := by
  induction reqs with
  | nil =>
    intro t failed t' h req hreq
    simp at hreq
  | cons req0 rest ih =>
    intro t failed t' h req hreq hnf
    simp only [runPuts] at h
    cases hi : t.insert req0.put_request.item with
    | mk res t1 =>
      cases res with
      | ok =>
        simp only [hi] at h
        rcases List.mem_cons.mp hreq with hreq | hreq
        · subst hreq
          have hmem : req.put_request.item ∈ t1.allRows := insert_ok_item_mem t t1 _ hi
          exact runPuts_allRows_mono rest t1 failed t' _ h hmem
        · exact ih t1 failed t' h req hreq hnf
      | err e =>
        simp only [hi] at h
        cases hrest : runPuts t1 rest with
        | panicked m =>
          simp only [hrest] at h
          exact PanicOr.noConfusion h
        | ok p =>
          obtain ⟨failed0, t2⟩ := p
          simp only [hrest] at h
          cases h
          rcases List.mem_cons.mp hreq with hreq | hreq
          · subst hreq
            exact absurd (List.mem_cons_self _ _) hnf
          · exact ih t1 failed0 t' hrest req hreq
              (fun hc => hnf (List.mem_cons_of_mem _ hc))
      | panicked m =>
        simp only [hi] at h
        exact PanicOr.noConfusion h

lemma findInTables_name (ts : List Table) (tn : String) (t : Table)
    (h : findInTables ts tn = some t) : t.name = tn := by
  induction ts with
  | nil => exact Option.noConfusion h
  | cons t0 rest ih =>
    simp only [findInTables] at h
    by_cases h0 : t0.name = tn
    · rw [if_pos h0] at h
      cases h
      exact h0
    · rw [if_neg h0] at h
      exact ih h

lemma findInRegions_name (rs : List (Region × List Table)) (tn : String) (t : Table)
    (h : findInRegions rs tn = some t) : t.name = tn := by
  induction rs with
  | nil => exact Option.noConfusion h
  | cons hd rest ih =>
    obtain ⟨r, ts⟩ := hd
    simp only [findInRegions] at h
    cases hf : findInTables ts tn with
    | some t0 =>
      rw [hf] at h
      cases h
      exact findInTables_name ts tn _ hf
    | none =>
      rw [hf] at h
      exact ih h

lemma findInAccounts_name (accs : List (String × TablesPerRegion)) (tn : String)
    (t : Table) (h : findInAccounts accs tn = some t) : t.name = tn := by
  induction accs with
  | nil => exact Option.noConfusion h
  | cons hd rest ih =>
    obtain ⟨a, tpr⟩ := hd
    simp only [findInAccounts] at h
    cases hf : findInRegions tpr.tables tn with
    | some t0 =>
      rw [hf] at h
      cases h
      exact findInRegions_name tpr.tables tn _ hf
    | none =>
      rw [hf] at h
      exact ih h

lemma get_table_name (m : TableManager) (tn : String) (t : Table)
    (h : m.get_table tn = some t) : t.name = tn :=
  findInAccounts_name m.per_account tn t h

lemma replaceInTables_none (ts : List Table) (tn : String) (t' : Table)
    (h : findInTables ts tn = none) : replaceInTables ts tn t' = none := by
  induction ts with
  | nil => rfl
  | cons t0 rest ih =>
    simp only [findInTables] at h
    simp only [replaceInTables]
    by_cases h0 : t0.name = tn
    · rw [if_pos h0] at h
      exact Option.noConfusion h
    · rw [if_neg h0] at h
      rw [if_neg h0, ih h]
      rfl

lemma replaceInTables_spec (ts : List Table) (tn : String) (t t' : Table)
    (hf : findInTables ts tn = some t) (hname : t'.name = tn) :
    ∃ ts', replaceInTables ts tn t' = some ts' ∧
      findInTables ts' tn = some t' ∧
      ∀ s, s ≠ tn → findInTables ts' s = findInTables ts s := by
  induction ts with
  | nil => exact Option.noConfusion hf
  | cons t0 rest ih =>
    simp only [findInTables] at hf
    by_cases h0 : t0.name = tn
    · refine ⟨t' :: rest, ?_, ?_, ?_⟩
      · simp only [replaceInTables, if_pos h0]
      · simp only [findInTables, if_pos hname]
      · intro s hs
        have hn' : ¬ t'.name = s := by rw [hname]; exact fun hc => hs hc.symm
        have hn0 : ¬ t0.name = s := by rw [h0]; exact fun hc => hs hc.symm
        simp only [findInTables, if_neg hn', if_neg hn0]
    · rw [if_neg h0] at hf
      obtain ⟨rest', hrep, hfind, hother⟩ := ih hf
      refine ⟨t0 :: rest', ?_, ?_, ?_⟩
      · simp only [replaceInTables, if_neg h0, hrep, Option.map_some']
      · simp only [findInTables, if_neg h0, hfind]
      · intro s hs
        by_cases hs0 : t0.name = s
        · simp only [findInTables, if_pos hs0]
        · simp only [findInTables, if_neg hs0]
          exact hother s hs

lemma replaceInRegions_none (rs : List (Region × List Table)) (tn : String)
    (t' : Table) (h : findInRegions rs tn = none) :
    replaceInRegions rs tn t' = none := by
  induction rs with
  | nil => rfl
  | cons hd rest ih =>
    obtain ⟨r, ts⟩ := hd
    simp only [findInRegions] at h
    simp only [replaceInRegions]
    cases hf : findInTables ts tn with
    | some t0 =>
      rw [hf] at h
      exact Option.noConfusion h
    | none =>
      rw [hf] at h
      rw [replaceInTables_none ts tn t' hf, ih h]
      rfl

lemma replaceInRegions_spec (rs : List (Region × List Table)) (tn : String)
    (t t' : Table) (hf : findInRegions rs tn = some t) (hname : t'.name = tn) :
    ∃ rs', replaceInRegions rs tn t' = some rs' ∧
      findInRegions rs' tn = some t' ∧
      ∀ s, s ≠ tn → findInRegions rs' s = findInRegions rs s := by
  induction rs with
  | nil => exact Option.noConfusion hf
  | cons hd rest ih =>
    obtain ⟨r, ts⟩ := hd
    simp only [findInRegions] at hf
    cases hft : findInTables ts tn with
    | some t0 =>
      obtain ⟨ts', hrep, hfind, hother⟩ := replaceInTables_spec ts tn t0 t' hft hname
      refine ⟨(r, ts') :: rest, ?_, ?_, ?_⟩
      · simp only [replaceInRegions, hrep]
      · simp only [findInRegions, hfind]
      · intro s hs
        simp only [findInRegions, hother s hs]
    | none =>
      rw [hft] at hf
      obtain ⟨rest', hrep, hfind, hother⟩ := ih hf
      refine ⟨(r, ts) :: rest', ?_, ?_, ?_⟩
      · simp only [replaceInRegions, replaceInTables_none ts tn t' hft, hrep,
          Option.map_some']
      · simp only [findInRegions, hft, hfind]
      · intro s hs
        simp only [findInRegions, hother s hs]

lemma replaceInAccounts_spec (accs : List (String × TablesPerRegion)) (tn : String)
    (t t' : Table) (hf : findInAccounts accs tn = some t) (hname : t'.name = tn) :
    ∃ accs', replaceInAccounts accs tn t' = some accs' ∧
      findInAccounts accs' tn = some t' ∧
      ∀ s, s ≠ tn → findInAccounts accs' s = findInAccounts accs s := by
  induction accs with
  | nil => exact Option.noConfusion hf
  | cons hd rest ih =>
    obtain ⟨a, tpr⟩ := hd
    simp only [findInAccounts] at hf
    cases hft : findInRegions tpr.tables tn with
    | some t0 =>
      obtain ⟨rs', hrep, hfind, hother⟩ :=
        replaceInRegions_spec tpr.tables tn t0 t' hft hname
      refine ⟨(a, ⟨rs'⟩) :: rest, ?_, ?_, ?_⟩
      · simp only [replaceInAccounts, hrep]
      · simp only [findInAccounts, hfind]
      · intro s hs
        simp only [findInAccounts, hother s hs]
    | none =>
      rw [hft] at hf
      obtain ⟨rest', hrep, hfind, hother⟩ := ih hf
      refine ⟨(a, tpr) :: rest', ?_, ?_, ?_⟩
      · simp only [replaceInAccounts, replaceInRegions_none tpr.tables tn t' hft,
          hrep, Option.map_some']
      · simp only [findInAccounts, hft, hfind]
      · intro s hs
        simp only [findInAccounts, hother s hs]

lemma replaceTable_spec (m : TableManager) (tn : String) (t t' : Table)
    (hf : m.get_table tn = some t) (hname : t'.name = tn) :
    (m.replaceTable tn t').get_table tn = some t' ∧
    ∀ s, s ≠ tn → (m.replaceTable tn t').get_table s = m.get_table s := by
  obtain ⟨accs', hrep, hfind, hother⟩ :=
    replaceInAccounts_spec m.per_account tn t t' hf hname
  unfold TableManager.replaceTable
  rw [hrep]
  exact ⟨hfind, fun s hs => hother s hs⟩

lemma pushUnp_other (u : List (String × List BatchPutRequest)) (tn s : String)
    (req : BatchPutRequest) (hs : s ≠ tn) :
    assocGet (pushUnp u tn req) s = assocGet u s := by
  induction u with
  | nil =>
    simp only [pushUnp, assocGet]
    rw [if_neg (fun hc => hs hc.symm)]
  | cons hd rest ih =>
    obtain ⟨k, l⟩ := hd
    simp only [pushUnp]
    by_cases hk : k = tn
    · rw [if_pos hk]
      simp only [assocGet]
      have hks : ¬ k = s := by
        rw [hk]
        exact fun hc => hs hc.symm
      rw [if_neg hks, if_neg hks]
    · rw [if_neg hk]
      simp only [assocGet]
      by_cases hks : k = s
      · rw [if_pos hks, if_pos hks]
      · rw [if_neg hks, if_neg hks]
        exact ih

lemma addUnp_other (reqs : List BatchPutRequest) :
    ∀ (u : List (String × List BatchPutRequest)) (tn s : String), s ≠ tn →
      assocGet (addUnp u tn reqs) s = assocGet u s := by
  induction reqs with
  | nil => intro u tn s hs; rfl
  | cons req rest ih =>
    intro u tn s hs
    show assocGet (addUnp (pushUnp u tn req) tn rest) s = assocGet u s
    rw [ih (pushUnp u tn req) tn s hs, pushUnp_other u tn s req hs]

lemma pushUnp_self (u : List (String × List BatchPutRequest)) (tn : String)
    (req : BatchPutRequest) :
    assocGet (pushUnp u tn req) tn =
      (match assocGet u tn with
       | some l => some (l ++ [req])
       | none => some [req]) := by
  induction u with
  | nil => simp [pushUnp, assocGet]
  | cons hd rest ih =>
    obtain ⟨k, l⟩ := hd
    simp only [pushUnp]
    by_cases hk : k = tn
    · rw [if_pos hk]
      simp only [assocGet, if_pos hk]
    · rw [if_neg hk]
      simp only [assocGet, if_neg hk]
      exact ih

lemma addUnp_self (reqs : List BatchPutRequest) :
    ∀ (u : List (String × List BatchPutRequest)) (tn : String),
      assocGet (addUnp u tn reqs) tn =
        (match assocGet u tn with
         | some l => some (l ++ reqs)
         | none => if reqs.isEmpty then none else some reqs) := by
  induction reqs with
  | nil =>
    intro u tn
    cases h : assocGet u tn <;> simp [addUnp, h]
  | cons req rest ih =>
    intro u tn
    show assocGet (addUnp (pushUnp u tn req) tn rest) tn = _
    rw [ih (pushUnp u tn req) tn, pushUnp_self u tn req]
    cases h : assocGet u tn with
    | some l =>
      simp only [List.append_assoc, List.singleton_append]
    | none =>
      simp only [List.singleton_append, List.isEmpty_cons]
      cases rest <;> simp

lemma bwiGo_unp_preserved (pairs : List (String × List BatchPutRequest)) :
    ∀ (m : TableManager) (unp unpF : List (String × List BatchPutRequest))
      (mF : TableManager) (s : String),
      bwiGo m unp pairs = .ok (unpF, mF) → s ∉ pairs.map Prod.fst →
      assocGet unpF s = assocGet unp s := by
  induction pairs with
  | nil =>
    intro m unp unpF mF s h hs
    simp only [bwiGo] at h
    cases h
    rfl
  | cons hd rest ih =>
    obtain ⟨tn, reqs⟩ := hd
    intro m unp unpF mF s h hs
    simp only [List.map_cons, List.mem_cons] at hs
    push_neg at hs
    simp only [bwiGo] at h
    cases hT : m.get_table tn with
    | none =>
      simp only [hT] at h
      rw [ih m (addUnp unp tn reqs) unpF mF s h hs.2]
      exact addUnp_other reqs unp tn s hs.1
    | some t =>
      simp only [hT] at h
      cases hR : runPuts t reqs with
      | panicked msg =>
        simp only [hR] at h
        exact PanicOr.noConfusion h
      | ok p =>
        obtain ⟨failed, t'⟩ := p
        simp only [hR] at h
        rw [ih (m.replaceTable tn t') (addUnp unp tn failed) unpF mF s h hs.2]
        exact addUnp_other failed unp tn s hs.1

lemma bwiGo_tables_preserved (pairs : List (String × List BatchPutRequest)) :
    ∀ (m : TableManager) (unp unpF : List (String × List BatchPutRequest))
      (mF : TableManager) (s : String),
      bwiGo m unp pairs = .ok (unpF, mF) → s ∉ pairs.map Prod.fst →
      mF.get_table s = m.get_table s := by
  induction pairs with
  | nil =>
    intro m unp unpF mF s h hs
    simp only [bwiGo] at h
    cases h
    rfl
  | cons hd rest ih =>
    obtain ⟨tn, reqs⟩ := hd
    intro m unp unpF mF s h hs
    simp only [List.map_cons, List.mem_cons] at hs
    push_neg at hs
    simp only [bwiGo] at h
    cases hT : m.get_table tn with
    | none =>
      simp only [hT] at h
      exact ih m (addUnp unp tn reqs) unpF mF s h hs.2
    | some t =>
      simp only [hT] at h
      cases hR : runPuts t reqs with
      | panicked msg =>
        simp only [hR] at h
        exact PanicOr.noConfusion h
      | ok p =>
        obtain ⟨failed, t'⟩ := p
        simp only [hR] at h
        have hname : t'.name = tn := by
          rw [runPuts_name reqs t failed t' hR]
          exact get_table_name m tn t hT
        rw [ih (m.replaceTable tn t') (addUnp unp tn failed) unpF mF s h hs.2]
        exact (replaceTable_spec m tn t t' hT hname).2 s hs.1

lemma bwiGo_spec (pairs : List (String × List BatchPutRequest)) :
    ∀ (m : TableManager) (unp unpF : List (String × List BatchPutRequest))
      (mF : TableManager),
      bwiGo m unp pairs = .ok (unpF, mF) →
      (pairs.map Prod.fst).Nodup →
      (∀ k, k ∈ pairs.map Prod.fst → assocGet unp k = none) →
      ∀ tn reqs, (tn, reqs) ∈ pairs →
        ((m.get_table tn = none →
          assocGet unpF tn = (if reqs.isEmpty then none else some reqs)) ∧
        (∀ t, m.get_table tn = some t → ∃ failed t',
          runPuts t reqs = .ok (failed, t') ∧
          assocGet unpF tn = (if failed.isEmpty then none else some failed) ∧
          mF.get_table tn = some t' ∧
          failed.Sublist reqs ∧
          (∀ req ∈ reqs, req ∉ failed → req.put_request.item ∈ t'.allRows))) := by
  induction pairs with
  | nil =>
    intro m unp unpF mF h hnd hun tn reqs hmem
    simp at hmem
  | cons hd rest ih =>
    obtain ⟨tn0, reqs0⟩ := hd
    intro m unp unpF mF h hnd hun tn reqs hmem
    simp only [List.map_cons, List.nodup_cons] at hnd
    simp only [bwiGo] at h
    cases hT : m.get_table tn0 with
    | none =>
      simp only [hT] at h
      rcases List.mem_cons.mp hmem with hmem | hmem
      · injection hmem with h1 h2
        subst h1
        subst h2
        constructor
        · intro _
          have hp1 := bwiGo_unp_preserved rest m (addUnp unp tn reqs) unpF mF tn
            h hnd.1
          have hu0 : assocGet unp tn = none := hun tn (by simp)
          rw [hp1, addUnp_self reqs unp tn, hu0]
        · intro t ht
          rw [hT] at ht
          exact Option.noConfusion ht
      · refine ih m (addUnp unp tn0 reqs0) unpF mF h hnd.2 ?_ tn reqs hmem
        intro k hk
        have hkne : k ≠ tn0 := fun hc => hnd.1 (hc ▸ hk)
        rw [addUnp_other reqs0 unp tn0 k hkne]
        exact hun k (by simp [hk])
    | some t0 =>
      simp only [hT] at h
      cases hR : runPuts t0 reqs0 with
      | panicked msg =>
        simp only [hR] at h
        exact PanicOr.noConfusion h
      | ok p =>
        obtain ⟨failed0, t0f⟩ := p
        simp only [hR] at h
        have hname : t0f.name = tn0 := by
          rw [runPuts_name reqs0 t0 failed0 t0f hR]
          exact get_table_name m tn0 t0 hT
        have hrspec := replaceTable_spec m tn0 t0 t0f hT hname
        rcases List.mem_cons.mp hmem with hmem | hmem
        · injection hmem with h1 h2
          subst h1
          subst h2
          constructor
          · intro hnone
            rw [hT] at hnone
            exact Option.noConfusion hnone
          · intro t ht
            rw [hT] at ht
            injection ht with ht
            subst ht
            refine ⟨failed0, t0f, hR, ?_, ?_,
              runPuts_sublist reqs t0 failed0 t0f hR,
              runPuts_ok_mem reqs t0 failed0 t0f hR⟩
            · have hp1 := bwiGo_unp_preserved rest (m.replaceTable tn t0f)
                (addUnp unp tn failed0) unpF mF tn h hnd.1
              have hu0 : assocGet unp tn = none := hun tn (by simp)
              rw [hp1, addUnp_self failed0 unp tn, hu0]
            · have hp2 := bwiGo_tables_preserved rest (m.replaceTable tn t0f)
                (addUnp unp tn failed0) unpF mF tn h hnd.1
              rw [hp2]
              exact hrspec.1
        · have htn : tn ∈ rest.map Prod.fst := List.mem_map_of_mem Prod.fst hmem
          have htnne : tn ≠ tn0 := fun hc => hnd.1 (hc ▸ htn)
          have hunext : ∀ k, k ∈ rest.map Prod.fst →
              assocGet (addUnp unp tn0 failed0) k = none := by
            intro k hk
            have hkne : k ≠ tn0 := fun hc => hnd.1 (hc ▸ hk)
            rw [addUnp_other failed0 unp tn0 k hkne]
            exact hun k (by simp [hk])
          have hres := ih (m.replaceTable tn0 t0f) (addUnp unp tn0 failed0)
            unpF mF h hnd.2 hunext tn reqs hmem
          rw [← hrspec.2 tn htnne]
          exact hres

/-- C8: for every `BatchWriteItem` input (with the distinct table-name
keys a `HashMap` guarantees) whose processing completes without an
insert panic, each `(table, requests)` group behaves per the claim: a
missing table returns all its requests verbatim under
`UnprocessedItems[table]`; for a present table, exactly the requests
whose insert errored appear there verbatim (in order, none when all
succeed), and every request whose insert succeeded is absent from
`UnprocessedItems` and its item is stored in the table afterwards. -/
theorem c8_batch_write_item (m : TableManager) (input : BatchWriteInput)
    (unp : List (String × List BatchPutRequest)) (mF : TableManager)
    (hnd : (input.request_items.map Prod.fst).Nodup)
    (hrun : m.batch_write_item input = .ok (unp, mF)) :
    ∀ tn reqs, (tn, reqs) ∈ input.request_items →
      ((m.get_table tn = none →
        assocGet unp tn = (if reqs.isEmpty then none else some reqs)) ∧
      (∀ t, m.get_table tn = some t → ∃ failed t',
        runPuts t reqs = .ok (failed, t') ∧
        assocGet unp tn = (if failed.isEmpty then none else some failed) ∧
        mF.get_table tn = some t' ∧
        failed.Sublist reqs ∧
        (∀ req ∈ reqs, req ∉ failed → req.put_request.item ∈ t'.allRows))) :=
  bwiGo_spec input.request_items m [] unp mF hrun hnd (fun _ _ => rfl)

def tableC8 : Table :=
  { name := "t1", arn := "", table_id := "", attribute_definitions := [],
    partition_key := "pk", sort_key := some "sk", partitions := [] }

def managerC8 : TableManager :=
  ⟨[("000000000000", ⟨[(.UsEast1, [tableC8])]⟩)]⟩

def reqC8a : BatchPutRequest := ⟨⟨[("pk", .S "x"), ("sk", .S "y")]⟩⟩

def reqC8b : BatchPutRequest := ⟨⟨[("pk", .S "z")]⟩⟩

def inputC8 : BatchWriteInput := ⟨[("t1", [reqC8a]), ("t2", [reqC8b])]⟩

def tableC8i : Table :=
  { tableC8 with partitions := [("x", ⟨[[("pk", .S "x"), ("sk", .S "y")]]⟩)] }

def managerC8f : TableManager :=
  ⟨[("000000000000", ⟨[(.UsEast1, [tableC8i])]⟩)]⟩

theorem c8_witness :
    assocGet [("t2", [reqC8b])] "t2" = some [reqC8b] :=
  ((c8_batch_write_item managerC8 inputC8 [("t2", [reqC8b])] managerC8f
    (by decide) (by rfl)) "t2" [reqC8b] (by decide)).1 (by rfl)

end Rynamodb
